import Mathlib

/-!
Verification of the XML→HTML transformation core of the xml-style-viewer
repository (`src/transformer.py`, plus the preview-path helper of
`src/main_window.py`).

Python strings are embedded as `List Char` (a Python `str` is a sequence of
Unicode code points).  Filesystem paths (`pathlib.Path`, POSIX flavour) are
embedded as an absolute-flag plus a list of components.  The filesystem is an
explicit parameter (`PyPath → Bool` for existence checks, `PyPath → Option
(List Nat)` for file contents).  The external XSLT engine and the XML/XSL
parsers (`lxml.etree`) are collaborators: their outcome is passed in
explicitly (the prolog node list of a parsed document, the parsed stylesheet
structure, the raw transform output string).

Case-insensitive operations (`str.lower`, `re.IGNORECASE`) are modelled by
ASCII lowercasing, and Python's whitespace classes by their ASCII members;
this agrees with Python on all inputs relevant here.
-/

namespace XmlStyleViewer

/-- Python strings as lists of code points. -/
abbrev Chars := List Char

/-- ASCII lowercasing of one character (model of `str.lower` /
`re.IGNORECASE` on the ASCII range). -/
def charLower (c : Char) : Char :=
  if 'A' ≤ c ∧ c ≤ 'Z' then Char.ofNat (c.toNat + 32) else c

/-- Lowercase a whole string (model of `str.lower()`). -/
def mapLower (s : Chars) : Chars := s.map charLower

/-- Python regex `\s` class (ASCII members). -/
def isReWS (c : Char) : Bool :=
  c = ' ' ∨ c = '\t' ∨ c = '\n' ∨ c = '\r' ∨ c = '\x0b' ∨ c = '\x0c'

/-- Python `str.strip()` whitespace class (ASCII members). -/
def isPyWS (c : Char) : Bool :=
  c = ' ' ∨ c = '\t' ∨ c = '\n' ∨ c = '\r' ∨ c = '\x0b' ∨ c = '\x0c'

/-- Model of `str.strip()`: drop whitespace from both ends. -/
def pyStrip (s : Chars) : Chars :=
  ((s.dropWhile isPyWS).reverse.dropWhile isPyWS).reverse

/-- Python truthiness of an optional string (`if s:`): `False` for `None`
and for the empty string. -/
def pyTruthy : Option Chars → Bool
  | none => false
  | some s => !s.isEmpty

/-- Model of `str.find(sub)`: index of the leftmost occurrence, `none` when
absent (Python returns `-1`). -/
def strFind (hay pat : Chars) : Option Nat :=
  match hay with
  | [] => if pat.isEmpty then some 0 else none
  | _ :: r => if pat.isPrefixOf hay then some 0 else (strFind r pat).map (· + 1)

/-- Model of `str.find(sub, start)`. -/
def strFindFrom (hay pat : Chars) (start : Nat) : Option Nat :=
  (strFind (hay.drop start) pat).map (· + start)

/-! ## Paths (`pathlib.PurePosixPath` fragment used by the code) -/

/-- A POSIX path: whether it is absolute, and its components
(`PurePosixPath.parts`, excluding the root marker). -/
structure PyPath where
  absolute : Bool
  parts : List Chars
deriving DecidableEq, Repr

/-- `Path.name`: the final component, `""` when there is none. -/
def pathName (p : PyPath) : Chars := p.parts.getLast?.getD []

/-- CPython's `PurePath.stem` of a file name: strip the last suffix, where a
suffix is a final `.`-segment whose dot is neither the first nor the last
character of the name. -/
def pyStem (name : Chars) : Chars :=
  match (name.reverse.findIdx? (· = '.')) with
  | none => name
  | some j =>
    let i := name.length - 1 - j
    if 0 < i ∧ i < name.length - 1 then name.take i else name

/-- `Path.parent`: drop the final component (the parent of an empty path is
itself, as in `pathlib`). -/
def pathParent (p : PyPath) : PyPath :=
  { absolute := p.absolute, parts := p.parts.dropLast }

/-- `Path.__truediv__`: joining with an absolute right operand yields the
right operand. -/
def pathJoin (p q : PyPath) : PyPath :=
  if q.absolute then q
  else { absolute := p.absolute, parts := p.parts ++ q.parts }

/-- Split a path string on `/` into `pathlib` components: empty segments and
single-dot segments are dropped (as `PurePosixPath` does). -/
def parsePath (s : Chars) : PyPath :=
  { absolute := decide (s.take 1 = ['/'])
    parts := (s.splitOn '/').filter (fun t => decide (t ≠ [] ∧ t ≠ ['.'])) }

/-- `str(Path)`: rebuild the path string. -/
def pathStr (p : PyPath) : Chars :=
  if p.parts.isEmpty then (if p.absolute then ['/'] else ['.'])
  else (if p.absolute then ['/'] else []) ++
    (p.parts.intersperse ['/']).flatten

/-- Normalisation effect of `Path.resolve()` on the components: `..` removes
the previous component (at the root, `/..` stays the root); `.` segments are
dropped. Symlinks are not modelled. -/
def normParts (acc : List Chars) : List Chars → List Chars
  | [] => acc
  | seg :: rest =>
    if seg = ['.', '.'] then normParts acc.dropLast rest
    else if seg = ['.'] then normParts acc rest
    else normParts (acc ++ [seg]) rest

/-- `Path.resolve()`: make the path absolute against the current working
directory (given as components) and normalise `.`/`..` segments. -/
def resolvePy (cwd : List Chars) (p : PyPath) : PyPath :=
  { absolute := true
    parts := normParts (if p.absolute then [] else cwd) p.parts }

/-- `Path.with_suffix(sfx)`: replace the last suffix of the final component. -/
def pyWithSuffix (p : PyPath) (sfx : Chars) : PyPath :=
  { absolute := p.absolute
    parts := p.parts.dropLast ++ [pyStem (pathName p) ++ sfx] }

/-! ## `shlex.split` (POSIX mode, whitespace splitting)

`_read_stylesheet_href_from_pi` tokenises the processing-instruction text
with `shlex.split`.  We model its POSIX rules: whitespace separates tokens;
single quotes are literal up to the closing quote; inside double quotes a
backslash escapes only `"` and `\`; outside quotes a backslash escapes the
next character.  (`shlex` raises on an unterminated quote or trailing escape;
that exception path is modelled by closing the token at end of input — no
claim exercises it.) -/

/-- `shlex` word separators. -/
def isShlexWS (c : Char) : Bool := c = ' ' ∨ c = '\t' ∨ c = '\r' ∨ c = '\n'

/-- Tokeniser state: outside quotes, inside single quotes, inside double
quotes. -/
inductive ShMode | norm | single | double
deriving DecidableEq

/-- The `shlex.split` state machine.  `cur = none` means no token has been
started; `some tok` is the token accumulated so far (quotes can start an
empty token). -/
def shlexAux : List Char → ShMode → Option Chars → List Chars
  | [], _, none => []
  | [], _, some tok => [tok]
  | c :: rest, .norm, cur =>
    if isShlexWS c then
      match cur with
      | none => shlexAux rest .norm none
      | some tok => tok :: shlexAux rest .norm none
    else if c = '\'' then shlexAux rest .single (some (cur.getD []))
    else if c = '"' then shlexAux rest .double (some (cur.getD []))
    else if c = '\\' then
      match rest with
      | [] => [cur.getD []]
      | d :: rest2 => shlexAux rest2 .norm (some (cur.getD [] ++ [d]))
    else shlexAux rest .norm (some (cur.getD [] ++ [c]))
  | c :: rest, .single, cur =>
    if c = '\'' then shlexAux rest .norm (some (cur.getD []))
    else shlexAux rest .single (some (cur.getD [] ++ [c]))
  | c :: rest, .double, cur =>
    if c = '"' then shlexAux rest .norm (some (cur.getD []))
    else if c = '\\' then
      match rest with
      | [] => [cur.getD [] ++ [c]]
      | d :: rest2 =>
        if d = '"' ∨ d = '\\' then shlexAux rest2 .double (some (cur.getD [] ++ [d]))
        else shlexAux rest2 .double (some (cur.getD [] ++ [c, d]))
    else shlexAux rest .double (some (cur.getD [] ++ [c]))

/-- Model of `shlex.split(text)` (POSIX mode). -/
def shlexSplit (s : Chars) : List Chars := shlexAux s .norm none

/-! ## Reading the `xml-stylesheet` processing instruction -/

/-- A node preceding the document root: a processing instruction (with
target and optional text), or anything else (comment, DTD). -/
inductive PrologNode
  | pi (target : Chars) (text : Option Chars)
  | other
deriving DecidableEq

/-- `part.split("=", 1)` guarded by `"=" in part`: split a token at its
first `=` into key and value; `none` when the token has no `=`. -/
def splitFirstEq (part : Chars) : Option (Chars × Chars) :=
  match part.findIdx? (· = '=') with
  | none => none
  | some i => some (part.take i, part.drop (i + 1))

/-- The attribute dictionary built from the tokens, queried for `key`:
later assignments overwrite earlier ones, so the last matching token wins
(model of `attrs[key] = value` in a loop followed by `attrs.get(key)`). -/
def attrsGet (tokens : List Chars) (key : Chars) : Option Chars :=
  tokens.foldl
    (fun acc part =>
      match splitFirstEq part with
      | some (k, v) => if k = key then some v else acc
      | none => acc)
    none

/-- `_read_stylesheet_href_from_pi`, scanning an already-reversed prolog:
walk the nodes preceding the root from the nearest one backward
(`root.getprevious()` chain); at the first `xml-stylesheet` PI with truthy
text, tokenise it and return the `href` attribute (possibly absent). -/
def readHrefScan : List PrologNode → Option Chars
  | [] => none
  | .pi target text :: rest =>
    if target = "xml-stylesheet".data ∧ pyTruthy text then
      attrsGet (shlexSplit (text.getD [])) "href".data
    else readHrefScan rest
  | .other :: rest => readHrefScan rest

/-- `_read_stylesheet_href_from_pi(xml_tree)`: the prolog is given in
document order, and the scan starts from the node nearest the root. -/
def readStylesheetHrefFromPi (prolog : List PrologNode) : Option Chars :=
  readHrefScan prolog.reverse

/-! ## The stylesheet resolver (`_resolve_xsl_path`) -/

/-- `_get_expected_xsl_name(xml_path)`: `f"{xml_path.stem}.xsl"`. -/
def expectedXslName (xmlPath : PyPath) : Chars :=
  pyStem (pathName xmlPath) ++ ".xsl".data

/-- Typed failures of the resolver: the `ValueError` (policy violation,
carrying the XML file name, the expected stylesheet name and the actual
href) and the `FileNotFoundError` (carrying the XML path and the probed
stylesheet path). -/
inductive ResolveError
  | policyViolation (xmlName expectedName actualHref : Chars)
  | notFound (xmlPath xslPath : PyPath)
deriving DecidableEq, Repr

/-- First half of `_resolve_xsl_path(xml_path, xml_tree)`: when the PI
declares a truthy `href`, enforce the naming policy on its base name and
resolve the original href against the XML file's directory; otherwise fall
back to the conventional sibling name.  `cwd` is the working directory used
by `Path.resolve()`. -/
def xslCandidate (cwd : List Chars) (xmlPath : PyPath) (prolog : List PrologNode) :
    Except ResolveError PyPath :=
  if pyTruthy (readStylesheetHrefFromPi prolog) then
    if pathName (parsePath ((readStylesheetHrefFromPi prolog).getD [])) ≠
        expectedXslName xmlPath then
      .error (.policyViolation (pathName xmlPath) (expectedXslName xmlPath)
        ((readStylesheetHrefFromPi prolog).getD []))
    else
      .ok (resolvePy cwd (pathJoin (pathParent xmlPath)
        (parsePath ((readStylesheetHrefFromPi prolog).getD []))))
  else
    .ok (resolvePy cwd (pathJoin (pathParent xmlPath)
      (parsePath (expectedXslName xmlPath))))

/-- `_resolve_xsl_path(xml_path, xml_tree)`: the candidate (or policy
failure) followed by the existence check.  `fs` is the filesystem existence
predicate. -/
def resolveXslPath (fs : PyPath → Bool) (cwd : List Chars)
    (xmlPath : PyPath) (prolog : List PrologNode) : Except ResolveError PyPath :=
  match xslCandidate cwd xmlPath prolog with
  | .error e => .error e
  | .ok xslPath =>
    if fs xslPath then .ok xslPath else .error (.notFound xmlPath xslPath)

/-! ## Markup post-processing (`_inject_custom_css`, `_has_meta_charset`,
`_inject_meta_charset`) -/

/-- The module-level `CUSTOM_CSS` string of `transformer.py`. -/
def CUSTOM_CSS : Chars :=
  "\n/* 必要最小限の折り返しのみ。視覚デザインはXSLに完全に従う */\npre.oshirase \x7b\n    white-space: pre-wrap !important;\n\x7d\n".data

/-- The style block spliced in by `_inject_custom_css`. -/
def styleBlock : Chars :=
  "<style>\n".data ++ CUSTOM_CSS ++ "\n</style>\n".data

/-- `_inject_custom_css(html)`: insert `styleBlock` immediately before the
first occurrence of `</head>` in the lowercased string, or prepend it when
there is none. -/
def injectCustomCss (html : Chars) : Chars :=
  match strFind (mapLower html) "</head>".data with
  | some idx => html.take idx ++ styleBlock ++ html.drop idx
  | none => styleBlock ++ html

/-- The `\s*=` tail of the regex: optional whitespace then `=`. -/
def eqAfterWs (u : Chars) : Bool :=
  match u.dropWhile isReWS with
  | '=' :: _ => true
  | _ => false

/-- Scanner for the tail of the regex `<meta\s+[^>]*charset\s*=`: within the
region before the next `>`, is there a position starting (case-insensitively)
with `charset`, followed by optional whitespace and `=`?  (`[^>]*` is an
unanchored gap that cannot cross a `>`.) -/
def scanCharsetEq : Chars → Bool
  | [] => false
  | c :: rest =>
    if c = '>' then false
    else
      ("charset".data.isPrefixOf (mapLower ((c :: rest).take 7)) &&
        eqAfterWs ((c :: rest).drop 7)) ||
      scanCharsetEq rest

/-- One anchored match of `re.search(r"<meta\s+[^>]*charset\s*=", html,
re.IGNORECASE)` at the head of the string: `<meta` (case-insensitive), one
whitespace character, then `scanCharsetEq` on the remainder (the regex's
`\s+[^>]*` is one whitespace followed by an arbitrary `>`-free gap). -/
def matchMetaAt (s : Chars) : Bool :=
  "<meta".data.isPrefixOf (mapLower (s.take 5)) &&
  (match s.drop 5 with
   | c :: r => isReWS c && scanCharsetEq r
   | [] => false)

/-- `_has_meta_charset(html)`: the regex matches at some position. -/
def hasMetaB : Chars → Bool
  | [] => false
  | s@(_ :: r) => matchMetaAt s || hasMetaB r

/-- Number of positions at which the meta-charset regex matches; "exactly
one `<meta charset>` declaration" is `countMeta = 1`. -/
def countMeta : Chars → Nat
  | [] => 0
  | s@(_ :: r) => (if matchMetaAt s then 1 else 0) + countMeta r

/-- The `<meta charset="...">` line built by `_inject_meta_charset`. -/
def metaLine (charset : Chars) : Chars :=
  "<meta charset=\"".data ++ charset ++ "\">\n".data

/-- `_inject_meta_charset(html, charset)`: no-op when a meta charset is
already present; otherwise insert `metaLine` right after the `>` closing the
first (case-insensitive) `<head` tag, or prepend it when there is no `<head`
or no closing `>`. -/
def injectMetaCharset (html charset : Chars) : Chars :=
  if hasMetaB html then html
  else
    match strFind (mapLower html) "<head".data with
    | none => metaLine charset ++ html
    | some headOpenIdx =>
      match strFindFrom (mapLower html) ">".data headOpenIdx with
      | none => metaLine charset ++ html
      | some headEnd =>
        html.take (headEnd + 1) ++ '\n' :: (metaLine charset ++ html.drop (headEnd + 1))

/-! ## Charset normalisation (`_normalize_charset`,
`_get_output_encoding_from_xsl`) -/

/-- The alias set that `_normalize_charset` maps to `Shift_JIS`. -/
def sjisAliases : List Chars :=
  ["shift_jis".data, "shift-jis".data, "sjis".data, "ms932".data, "cp932".data]

/-- `_normalize_charset(enc)`. -/
def normalizeCharset (enc : Option Chars) : Chars :=
  if pyTruthy enc = false then "UTF-8".data
  else
    let e := pyStrip (enc.getD [])
    if mapLower e ∈ sjisAliases then "Shift_JIS".data else e

/-- The parsed `<xsl:output>` element: its `encoding` attribute, when
declared. -/
structure XslOutputElem where
  encoding : Option Chars
deriving DecidableEq

/-- A successfully parsed stylesheet, as far as
`_get_output_encoding_from_xsl` inspects it: the root's namespace map and
the lookup of the `output` element in a given namespace
(`root.find(f"{{{ns}}}output")`). -/
structure XslDoc where
  nsmap : List (Chars × Chars)
  findOutput : Chars → Option XslOutputElem

/-- The XSLT 1.0 namespace used as the `nsmap` default. -/
def XSLT_NS : Chars := "http://www.w3.org/1999/XSL/Transform".data

/-- `root.nsmap.get("xsl", XSLT_NS)`. -/
def resolvedXslNs (d : XslDoc) : Chars :=
  ((d.nsmap.find? (fun kv => decide (kv.1 = "xsl".data))).map (·.2)).getD XSLT_NS

/-- `_get_output_encoding_from_xsl(xsl_path)`.  The `try/except` around the
parse is modelled by the `Option XslDoc` argument: `none` is any parse
failure, and every outcome yields a string (the function cannot raise). -/
def getOutputEncodingFromXsl (parsedXsl : Option XslDoc) : Chars :=
  match parsedXsl with
  | none => "UTF-8".data
  | some d =>
    match d.findOutput (resolvedXslNs d) with
    | some out => normalizeCharset out.encoding
    | none => "UTF-8".data

/-! ## Output writing (tail of `transform_to_html_file`) -/

/-- `str.encode(enc, errors="replace")` on one character: the codec's bytes
when the character is encodable, otherwise the replacement byte `?`
(`0x3f`). -/
def encodeCharReplace (codec : Char → Option (List Nat)) (c : Char) : List Nat :=
  (codec c).getD [0x3f]

/-- `html_str.encode(out_enc, errors="replace")`: per-character encoding
with lossy substitution; total — no encoding error can escape. -/
def encodeReplace (codec : Char → Option (List Nat)) (s : Chars) : List Nat :=
  (s.map (encodeCharReplace codec)).flatten

/-- `output_path_p.write_bytes(data)`: create or overwrite the destination
in the filesystem map. -/
def writeBytes (fsc : PyPath → Option (List Nat)) (p : PyPath) (data : List Nat) :
    PyPath → Option (List Nat) :=
  fun q => if q = p then some data else fsc q

/-- The output step of `transform_to_html_file`: default the destination to
the XML path with suffix `.html`, encode the final markup with lossy
substitution, write the bytes, return the destination. -/
def writeHtmlOutput (fsc : PyPath → Option (List Nat)) (codec : Char → Option (List Nat))
    (xmlPath : PyPath) (outputPath : Option PyPath) (html : Chars) :
    (PyPath → Option (List Nat)) × PyPath :=
  let outPath := match outputPath with
    | none => pyWithSuffix xmlPath ".html".data
    | some p => p
  (writeBytes fsc outPath (encodeReplace codec html), outPath)

/-- The post-processing pipeline of `transform_to_html_file` applied to the
raw XSLT output: CSS injection (inside `transform_to_html_string`) followed
by meta-charset injection with the resolved output encoding.  The string
this produces is exactly the string encoded and written to disk. -/
def transformPipeline (rawHtml outEnc : Chars) : Chars :=
  injectMetaCharset (injectCustomCss rawHtml) outEnc

/-! ## SHA-1 and the preview path (`_get_preview_html_path` of
`main_window.py`)

`hashlib.sha1(str(xml_path).encode("utf-8")).hexdigest()[:10]` is embedded
as an executable SHA-1 over byte lists (32-bit words as `Nat` reduced
mod `2 ^ 32`). -/

/-- Truncate to a 32-bit word. -/
def mod32 (n : Nat) : Nat := n % 4294967296

/-- 32-bit left rotation. -/
def rotl32 (s n : Nat) : Nat := mod32 (n * 2 ^ s + n / 2 ^ (32 - s))

/-- UTF-8 encoding of one code point (`str.encode("utf-8")`). -/
def utf8EncodeChar (c : Char) : List Nat :=
  let n := c.toNat
  if n < 0x80 then [n]
  else if n < 0x800 then [0xc0 + n / 64, 0x80 + n % 64]
  else if n < 0x10000 then [0xe0 + n / 4096, 0x80 + n / 64 % 64, 0x80 + n % 64]
  else [0xf0 + n / 262144, 0x80 + n / 4096 % 64, 0x80 + n / 64 % 64, 0x80 + n % 64]

/-- UTF-8 bytes of a string. -/
def utf8Bytes (s : Chars) : List Nat := (s.map utf8EncodeChar).flatten

/-- SHA-1 padding: append `0x80`, zero bytes to 56 mod 64, then the bit
length as 8 big-endian bytes. -/
def sha1Pad (msg : List Nat) : List Nat :=
  let len := msg.length
  let zeros := (120 - (len + 1) % 64) % 64
  msg ++ 0x80 :: List.replicate zeros 0 ++
    (List.range 8).map (fun i => 8 * len / 2 ^ (8 * (7 - i)) % 256)

/-- Big-endian 32-bit words of a 64-byte block. -/
def blockWords (block : List Nat) : List Nat :=
  (List.range 16).map (fun i =>
    block.getD (4 * i) 0 * 16777216 + block.getD (4 * i + 1) 0 * 65536 +
    block.getD (4 * i + 2) 0 * 256 + block.getD (4 * i + 3) 0)

/-- Extend 16 schedule words to 80. -/
def sha1Schedule (ws : List Nat) : List Nat :=
  (List.range 64).foldl
    (fun acc _ =>
      acc ++ [rotl32 1 ((((acc.getD (acc.length - 3) 0).xor
        (acc.getD (acc.length - 8) 0)).xor
        (acc.getD (acc.length - 14) 0)).xor
        (acc.getD (acc.length - 16) 0))])
    ws

/-- One SHA-1 round. -/
def sha1Round (w : List Nat) (st : Nat × Nat × Nat × Nat × Nat) (i : Nat) :
    Nat × Nat × Nat × Nat × Nat :=
  let (a, b, c, d, e) := st
  let f :=
    if i < 20 then (b.land c).lor ((b.xor 4294967295).land d)
    else if i < 40 then (b.xor c).xor d
    else if i < 60 then ((b.land c).lor (b.land d)).lor (c.land d)
    else (b.xor c).xor d
  let k :=
    if i < 20 then 0x5a827999
    else if i < 40 then 0x6ed9eba1
    else if i < 60 then 0x8f1bbcdc
    else 0xca62c1d6
  let temp := mod32 (rotl32 5 a + f + e + k + w.getD i 0)
  (temp, a, rotl32 30 b, c, d)

/-- Process one 64-byte block. -/
def sha1Block (h : Nat × Nat × Nat × Nat × Nat) (block : List Nat) :
    Nat × Nat × Nat × Nat × Nat :=
  let w := sha1Schedule (blockWords block)
  let (a, b, c, d, e) := (List.range 80).foldl (sha1Round w) h
  let (h0, h1, h2, h3, h4) := h
  (mod32 (h0 + a), mod32 (h1 + b), mod32 (h2 + c), mod32 (h3 + d), mod32 (h4 + e))

/-- Fold over the successive 64-byte blocks (the fuel is the block count). -/
def sha1Loop : Nat → List Nat → (Nat × Nat × Nat × Nat × Nat) →
    Nat × Nat × Nat × Nat × Nat
  | 0, _, h => h
  | n + 1, msg, h => sha1Loop n (msg.drop 64) (sha1Block h (msg.take 64))

/-- The five SHA-1 state words of a message. -/
def sha1Words (msg : List Nat) : Nat × Nat × Nat × Nat × Nat :=
  let padded := sha1Pad msg
  sha1Loop (padded.length / 64) padded
    (0x67452301, 0xefcdab89, 0x98badcfe, 0x10325476, 0xc3d2e1f0)

/-- One lowercase hex digit. -/
def hexDigit (n : Nat) : Char :=
  if n < 10 then Char.ofNat (48 + n) else Char.ofNat (87 + n)

/-- Eight lowercase hex digits of a 32-bit word, most significant first. -/
def word8Hex (n : Nat) : Chars :=
  (List.range 8).map (fun i => hexDigit (n / 16 ^ (7 - i) % 16))

/-- `hashlib.sha1(...).hexdigest()`. -/
def sha1Hex (msg : List Nat) : Chars :=
  let (h0, h1, h2, h3, h4) := sha1Words msg
  ([h0, h1, h2, h3, h4].map word8Hex).flatten

/-- `hashlib.sha1(str(p).encode("utf-8")).hexdigest()[:10]`. -/
def sha1Hex10 (s : Chars) : Chars := (sha1Hex (utf8Bytes s)).take 10

/-- The file name `f"{xml_path.stem}__preview__{h}.html"`. -/
def previewFileName (xmlPath : PyPath) : Chars :=
  pyStem (pathName xmlPath) ++ "__preview__".data ++ sha1Hex10 (pathStr xmlPath) ++
    ".html".data

/-- `_get_preview_html_path(xml_path)` with the temp root
(`tempfile.gettempdir() / APP_NAME`) passed explicitly: join the derived
preview file name onto the temp root. -/
def getPreviewHtmlPath (tempRoot : PyPath) (xmlPath : PyPath) : PyPath :=
  pathJoin tempRoot (parsePath (previewFileName xmlPath))

/-! # Theorems

## Shared helper lemmas -/

theorem charLower_toNat_of_upper {c : Char} (h : 'A' ≤ c ∧ c ≤ 'Z') :
    (charLower c).toNat = c.toNat + 32 := by
  have h65 : 65 ≤ c.toNat := by
    have := h.1; simp [Char.le_def, UInt32.le_def] at this; exact this
  have h90 : c.toNat ≤ 90 := by
    have := h.2; simp [Char.le_def, UInt32.le_def] at this; exact this
  have hv : (c.toNat + 32).isValidChar := Or.inl (by omega)
  simp only [charLower, if_pos h]
  rw [Char.ofNat, dif_pos hv]
  rfl

/-- `charLower` cannot send a character to a target outside the lowercase
range unless the character is already that target. -/
theorem charLower_eq_of_target_lt {c t : Char} (ht : t.toNat < 97)
    (h : charLower c = t) : c = t := by
  by_cases hu : 'A' ≤ c ∧ c ≤ 'Z'
  · exfalso
    have h1 := charLower_toNat_of_upper hu
    have h65 : 65 ≤ c.toNat := by
      have := hu.1; simp [Char.le_def, UInt32.le_def] at this; exact this
    rw [h] at h1
    omega
  · simpa [charLower, if_neg hu] using h

theorem charLower_ne_lt {c : Char} (h : c ≠ '<') : charLower c ≠ '<' :=
  fun he => h (charLower_eq_of_target_lt (by decide) he)

theorem charLower_gt : charLower '>' = '>' := by decide

/-! ### `strFind` characterisation (Python `str.find`) -/

theorem strFind_le_length {hay pat : Chars} {i : Nat} (h : strFind hay pat = some i) :
    i ≤ hay.length := by
  induction hay generalizing i with
  | nil =>
    simp only [strFind] at h
    split at h
    · simp_all
    · exact absurd h (by simp)
  | cons c r ih =>
    simp only [strFind] at h
    split at h
    · obtain rfl : i = 0 := by simp_all
      simp
    · simp only [Option.map_eq_some'] at h
      obtain ⟨i', hi', rfl⟩ := h
      simpa using Nat.succ_le_succ (ih hi')

theorem strFind_some {hay pat : Chars} {i : Nat} (h : strFind hay pat = some i) :
    pat.isPrefixOf (hay.drop i) = true ∧
      ∀ j < i, pat.isPrefixOf (hay.drop j) = false := by
  induction hay generalizing i with
  | nil =>
    simp only [strFind] at h
    split at h
    · rename_i hp
      obtain rfl : i = 0 := by simp_all
      refine ⟨?_, by omega⟩
      simp_all [List.isEmpty_iff, List.isPrefixOf]
    · exact absurd h (by simp)
  | cons c r ih =>
    simp only [strFind] at h
    split at h
    · rename_i hp
      obtain rfl : i = 0 := by simp_all
      exact ⟨by simpa using hp, by omega⟩
    · rename_i hp
      simp only [Option.map_eq_some'] at h
      obtain ⟨i', hi', rfl⟩ := h
      obtain ⟨h1, h2⟩ := ih hi'
      refine ⟨by simpa using h1, ?_⟩
      intro j hj
      match j with
      | 0 => simpa using Bool.of_not_eq_true hp
      | j' + 1 => exact h2 j' (by omega)

theorem strFind_none {hay pat : Chars} (h : strFind hay pat = none) :
    ∀ j, pat.isPrefixOf (hay.drop j) = false := by
  induction hay with
  | nil =>
    intro j
    simp only [strFind] at h
    split at h
    · exact absurd h (by simp)
    · rename_i hp
      simp only [List.drop_nil]
      cases pat with
      | nil => simp [List.isEmpty] at hp
      | cons p ps => rfl
  | cons c r ih =>
    intro j
    simp only [strFind] at h
    split at h
    · exact absurd h (by simp)
    · rename_i hp
      simp only [Option.map_eq_none'] at h
      match j with
      | 0 => simpa using Bool.of_not_eq_true hp
      | j' + 1 => simpa using ih h j'

/-! ## C6 — `_normalize_charset` -/

/-- The literal reading of the claim's second clause: the raw input matches
an alias case-insensitively (no trimming). -/
def matchesAliasRaw (s : Chars) : Bool := decide (mapLower s ∈ sjisAliases)

/-- Counterexample to C6 as stated: `" sjis "` is non-empty and does not
match any alias case-insensitively (the surrounding spaces prevent it), so
the claim's final clause predicts the trimmed input `"sjis"` unchanged; the
code instead canonicalises it to `"Shift_JIS"`, because the alias match is
performed on the trimmed, lowercased input. -/
theorem claim_C6_counterexample :
    pyTruthy (some " sjis ".data) = true ∧
    matchesAliasRaw " sjis ".data = false ∧
    normalizeCharset (some " sjis ".data) = "Shift_JIS".data ∧
    normalizeCharset (some " sjis ".data) ≠ pyStrip " sjis ".data := by
  decide

/-- C6 (amended): `None`/empty input yields `"UTF-8"`; otherwise the input
is trimmed, and if its lowercase form is one of the five aliases the result
is `"Shift_JIS"`, else the trimmed input unchanged. -/
theorem claim_C6_normalize_charset (enc : Option Chars) :
    (pyTruthy enc = false → normalizeCharset enc = "UTF-8".data) ∧
    (∀ s, enc = some s → pyTruthy enc = true →
      (mapLower (pyStrip s) ∈ sjisAliases →
        normalizeCharset enc = "Shift_JIS".data) ∧
      (mapLower (pyStrip s) ∉ sjisAliases →
        normalizeCharset enc = pyStrip s)) := by
  constructor
  · intro h
    simp [normalizeCharset, h]
  · rintro s rfl ht
    refine ⟨fun hm => ?_, fun hm => ?_⟩
    · simp [normalizeCharset, ht, hm]
    · simp [normalizeCharset, ht, hm]

/-- Concrete instances of the C6 theorem: an alias with mixed case and
whitespace, a pass-through name, and the `None` default. -/
theorem claim_C6_witness :
    normalizeCharset (some "  MS932 ".data) = "Shift_JIS".data ∧
    normalizeCharset (some "euc-jp".data) = "euc-jp".data ∧
    normalizeCharset none = "UTF-8".data := by
  refine ⟨((claim_C6_normalize_charset (some "  MS932 ".data)).2 _ rfl
      (by decide)).1 (by decide), ?_, (claim_C6_normalize_charset none).1 (by decide)⟩
  have h := ((claim_C6_normalize_charset (some "euc-jp".data)).2 _ rfl
    (by decide)).2 (by decide)
  rw [h]
  decide

/-! ## C5 — `_get_output_encoding_from_xsl` -/

/-- C5: the encoding extractor is a total function of the parse outcome
(it cannot raise); a failed parse, a missing `xsl:output` element, and a
missing `encoding` attribute all yield `"UTF-8"`, and a declared encoding is
returned through `_normalize_charset`. -/
theorem claim_C5_output_encoding :
    (getOutputEncodingFromXsl none = "UTF-8".data) ∧
    (∀ d : XslDoc, d.findOutput (resolvedXslNs d) = none →
      getOutputEncodingFromXsl (some d) = "UTF-8".data) ∧
    (∀ (d : XslDoc) (out : XslOutputElem), d.findOutput (resolvedXslNs d) = some out →
      getOutputEncodingFromXsl (some d) = normalizeCharset out.encoding) ∧
    (∀ (d : XslDoc) (out : XslOutputElem), d.findOutput (resolvedXslNs d) = some out →
      out.encoding = none → getOutputEncodingFromXsl (some d) = "UTF-8".data) := by
  refine ⟨rfl, fun d h => ?_, fun d out h => ?_, fun d out h he => ?_⟩
  · simp [getOutputEncodingFromXsl, h]
  · simp [getOutputEncodingFromXsl, h]
  · simp [getOutputEncodingFromXsl, h, he, normalizeCharset, pyTruthy]

/-- A stylesheet whose `xsl:output` declares `encoding="  sjis"` (resolved
through the default XSLT namespace). -/
def exampleXslDoc : XslDoc :=
  { nsmap := []
    findOutput := fun ns => if ns = XSLT_NS then some ⟨some "  sjis".data⟩ else none }

theorem claim_C5_witness :
    getOutputEncodingFromXsl (some exampleXslDoc) = "Shift_JIS".data := by
  have h := claim_C5_output_encoding.2.2.1 exampleXslDoc ⟨some "  sjis".data⟩ (by decide)
  rw [h]
  decide

/-! ## C8 — the output write step of `transform_to_html_file` -/

/-- C8: the write step returns the destination path, stores exactly the
lossily-encoded bytes there (creating or overwriting, whatever was there
before), leaves every other path untouched, replaces every unencodable
character by the `?` byte rather than failing, and defaults the destination
to the XML path with suffix `.html`. -/
theorem claim_C8_write_output (fsc : PyPath → Option (List Nat))
    (codec : Char → Option (List Nat)) (dest xmlPath : PyPath) (html : Chars) :
    (writeHtmlOutput fsc codec xmlPath (some dest) html).2 = dest ∧
    (writeHtmlOutput fsc codec xmlPath (some dest) html).1 dest =
      some (encodeReplace codec html) ∧
    (∀ q, q ≠ dest → (writeHtmlOutput fsc codec xmlPath (some dest) html).1 q = fsc q) ∧
    (∀ c, codec c = none → encodeCharReplace codec c = [0x3f]) ∧
    (writeHtmlOutput fsc codec xmlPath none html).2 = pyWithSuffix xmlPath ".html".data := by
  refine ⟨rfl, ?_, fun q hq => ?_, fun c hc => ?_, rfl⟩
  · simp [writeHtmlOutput, writeBytes]
  · simp [writeHtmlOutput, writeBytes, hq]
  · simp [encodeCharReplace, hc]

/-- An ASCII-only codec. -/
def exCodecAscii : Char → Option (List Nat) :=
  fun c => if c.toNat < 128 then some [c.toNat] else none

def exOutPath : PyPath := ⟨true, ["out.html".data]⟩

/-- Concrete instance of C8: writing `"aé"` through an ASCII codec stores
`[0x61, 0x3f]` (the `é` replaced) at the destination and nothing else. -/
theorem claim_C8_witness :
    (writeHtmlOutput (fun _ => none) exCodecAscii ⟨true, ["a.xml".data]⟩
      (some exOutPath) "aé".data).1 exOutPath = some [97, 63] ∧
    (writeHtmlOutput (fun _ => none) exCodecAscii ⟨true, ["a.xml".data]⟩
      (some exOutPath) "aé".data).1 ⟨true, ["b".data]⟩ = none := by
  constructor
  · have h := (claim_C8_write_output (fun _ => none) exCodecAscii exOutPath
      ⟨true, ["a.xml".data]⟩ "aé".data).2.1
    rw [h]
    decide
  · exact (claim_C8_write_output (fun _ => none) exCodecAscii exOutPath
      ⟨true, ["a.xml".data]⟩ "aé".data).2.2.1 ⟨true, ["b".data]⟩ (by decide)

/-! ## The resolver claims (C1, C3, C10)

A path is *clean* when it is absolute and its components are ordinary file
names (non-empty, not `.`/`..`, no slash); on clean paths `Path.resolve()`
only glues the directory and file name together, so the resolver's output
can be compared against the conventional sibling path literally. -/

def isCleanPath (p : PyPath) : Bool :=
  p.absolute && p.parts.all (fun s => decide (s ≠ [] ∧ s ≠ ['.', '.'] ∧ s ≠ ['.'] ∧ '/' ∉ s))

/-- The conventional sibling stylesheet path `xmlDir / (stem(xml) + ".xsl")`. -/
def conventionalXslPath (xmlPath : PyPath) : PyPath :=
  pathJoin (pathParent xmlPath) (parsePath (expectedXslName xmlPath))

theorem normParts_no_dots (acc : List Chars) (l : List Chars)
    (h : ∀ s ∈ l, s ≠ ['.', '.'] ∧ s ≠ ['.']) : normParts acc l = acc ++ l := by
  induction l generalizing acc with
  | nil => simp [normParts]
  | cons x xs ih =>
    have hx := h x (List.mem_cons_self x xs)
    simp only [normParts, if_neg hx.1, if_neg hx.2]
    rw [ih _ (fun s hs => h s (List.mem_cons_of_mem x hs))]
    simp

instance {ε α : Type} [DecidableEq ε] [DecidableEq α] : DecidableEq (Except ε α) :=
  fun a b =>
    match a, b with
    | .ok x, .ok y => decidable_of_iff (x = y) (by simp)
    | .error x, .error y => decidable_of_iff (x = y) (by simp)
    | .ok _, .error _ => isFalse (by simp)
    | .error _, .ok _ => isFalse (by simp)

theorem pyStem_subset (name : Chars) : pyStem name ⊆ name := by
  unfold pyStem
  split
  · exact fun a ha => ha
  · dsimp only
    split
    · exact List.take_subset _ _
    · exact fun a ha => ha

theorem parsePath_single {s : Chars} (h0 : s ≠ []) (h1 : s ≠ ['.']) (h2 : '/' ∉ s) :
    parsePath s = ⟨false, [s]⟩ := by
  have habs : decide (s.take 1 = ['/']) = false := by
    cases s with
    | nil => exact absurd rfl h0
    | cons c cs =>
      have hc : c ≠ '/' := fun hc => h2 (hc ▸ List.mem_cons_self c cs)
      simp [List.take, hc]
  have hsplit : s.splitOn '/' = [s] := by
    unfold List.splitOn
    rw [List.splitOnP_eq_single]
    intro x hx
    simp only [beq_iff_eq]
    exact fun he => h2 (he ▸ hx)
  simp [parsePath, habs, hsplit, List.filter, h0, h1]

theorem expectedXslName_facts (xmlPath : PyPath)
    (hname : '/' ∉ pathName xmlPath) :
    expectedXslName xmlPath ≠ [] ∧ expectedXslName xmlPath ≠ ['.'] ∧
      expectedXslName xmlPath ≠ ['.', '.'] ∧ '/' ∉ expectedXslName xmlPath := by
  have hlen : (expectedXslName xmlPath).length =
      (pyStem (pathName xmlPath)).length + 4 := by
    simp [expectedXslName]
  refine ⟨?_, ?_, ?_, ?_⟩
  · intro h; rw [h] at hlen; simp at hlen
  · intro h; rw [h] at hlen; simp at hlen
  · intro h; rw [h] at hlen; simp at hlen
  · intro hm
    rcases List.mem_append.1 hm with hm | hm
    · exact hname (pyStem_subset _ hm)
    · simp at hm

theorem isCleanPath_spec {p : PyPath} (h : isCleanPath p = true) :
    p.absolute = true ∧
      ∀ s ∈ p.parts, s ≠ [] ∧ s ≠ ['.', '.'] ∧ s ≠ ['.'] ∧ '/' ∉ s := by
  simp only [isCleanPath, Bool.and_eq_true, List.all_eq_true] at h
  exact ⟨h.1, fun s hs => of_decide_eq_true (h.2 s hs)⟩

theorem pathName_no_slash {p : PyPath} (h : isCleanPath p = true) :
    '/' ∉ pathName p := by
  obtain ⟨-, hall⟩ := isCleanPath_spec h
  unfold pathName
  cases hl : p.parts.getLast? with
  | none => simp
  | some s =>
    have hs : s ∈ p.parts := List.mem_of_mem_getLast? (by simp [hl])
    simpa using (hall s hs).2.2.2

theorem resolvePy_conventional (cwd : List Chars) {xmlPath : PyPath}
    (h : isCleanPath xmlPath = true) :
    resolvePy cwd (conventionalXslPath xmlPath) = conventionalXslPath xmlPath := by
  obtain ⟨habs, hall⟩ := isCleanPath_spec h
  obtain ⟨he0, he1, he2, heslash⟩ := expectedXslName_facts xmlPath (pathName_no_slash h)
  have hparse : parsePath (expectedXslName xmlPath) = ⟨false, [expectedXslName xmlPath]⟩ :=
    parsePath_single he0 he1 heslash
  have hjoin : conventionalXslPath xmlPath =
      ⟨xmlPath.absolute, xmlPath.parts.dropLast ++ [expectedXslName xmlPath]⟩ := by
    simp [conventionalXslPath, hparse, pathJoin, pathParent]
  rw [hjoin]
  simp only [resolvePy, habs, if_pos rfl]
  rw [normParts_no_dots]
  · simp
  · intro s hs
    rcases List.mem_append.1 hs with hs | hs
    · have := hall s (List.dropLast_subset _ hs)
      exact ⟨this.2.1, this.2.2.1⟩
    · simp only [List.mem_singleton] at hs
      exact hs ▸ ⟨he2, he1⟩

/-- Counterexample inputs: an XML document `/docs/a.xml` whose nearest
`xml-stylesheet` PI declares `href=""`, on a filesystem where only the
conventional sibling `/docs/a.xsl` exists. -/
def exPrologEmptyHref : List PrologNode :=
  [.pi "xml-stylesheet".data (some "type=\"text/xsl\" href=\"\"".data)]

def exXmlPath : PyPath := ⟨true, ["docs".data, "a.xml".data]⟩

def exFs : PyPath → Bool := fun p => decide (p = ⟨true, ["docs".data, "a.xsl".data]⟩)

/-- Counterexample to C1 as stated: the nearest PI *does* declare an `href`
(the empty string), whose base name `""` differs from the expected
`"a.xsl"`, yet resolution does not fail with a policy violation — it
silently falls back to the conventional sibling and succeeds. -/
theorem claim_C1_counterexample :
    readStylesheetHrefFromPi exPrologEmptyHref = some [] ∧
    pathName (parsePath []) ≠ expectedXslName exXmlPath ∧
    resolveXslPath exFs [] exXmlPath exPrologEmptyHref =
      .ok ⟨true, ["docs".data, "a.xsl".data]⟩ := by
  decide

/-- C1 (amended): for every *non-empty* declared href whose base name
differs from the expected stylesheet name, resolution fails with the policy
violation carrying the XML file name, the expected name and the actual
href, for every filesystem — in particular it never falls back to the
conventional sibling, whether or not the referenced file exists. -/
theorem claim_C1_policy_violation (fs : PyPath → Bool) (cwd : List Chars)
    (xmlPath : PyPath) (prolog : List PrologNode) (hv : Chars)
    (hhref : readStylesheetHrefFromPi prolog = some hv) (hne : hv ≠ [])
    (hmis : pathName (parsePath hv) ≠ expectedXslName xmlPath) :
    resolveXslPath fs cwd xmlPath prolog =
      .error (.policyViolation (pathName xmlPath) (expectedXslName xmlPath) hv) := by
  have hcand : xslCandidate cwd xmlPath prolog =
      .error (.policyViolation (pathName xmlPath) (expectedXslName xmlPath) hv) := by
    have ht : pyTruthy (readStylesheetHrefFromPi prolog) = true := by
      rw [hhref]; simpa [pyTruthy] using hne
    rw [xslCandidate, if_pos ht, hhref]
    simp only [Option.getD_some]
    rw [if_pos hmis]
  rw [resolveXslPath, hcand]

/-- Concrete instance of the C1 theorem: `href="wrong.xsl"` for `a.xml`
fails with the policy violation even though `wrong.xsl` exists. -/
theorem claim_C1_witness :
    resolveXslPath (fun _ => true) [] exXmlPath
      [.pi "xml-stylesheet".data (some "type=\"text/xsl\" href=\"wrong.xsl\"".data)] =
      .error (.policyViolation "a.xml".data "a.xsl".data "wrong.xsl".data) :=
  claim_C1_policy_violation (fun _ => true) [] exXmlPath
    [.pi "xml-stylesheet".data (some "type=\"text/xsl\" href=\"wrong.xsl\"".data)]
    "wrong.xsl".data (by decide) (by decide) (by decide)

/-- C3: without a declared href the resolver probes exactly the
conventional sibling `xmlDir / (stem + ".xsl")` — success returns that path
when it exists, `NotFound` (carrying the XML path and the probed path) when
it does not — and every successful resolution, href or not, returns a path
the filesystem reports as existing. -/
theorem claim_C3_fallback_resolution :
    (∀ (fs : PyPath → Bool) (cwd : List Chars) (xmlPath : PyPath)
        (prolog : List PrologNode),
      readStylesheetHrefFromPi prolog = none → isCleanPath xmlPath = true →
        (fs (conventionalXslPath xmlPath) = true →
          resolveXslPath fs cwd xmlPath prolog = .ok (conventionalXslPath xmlPath)) ∧
        (fs (conventionalXslPath xmlPath) = false →
          resolveXslPath fs cwd xmlPath prolog =
            .error (.notFound xmlPath (conventionalXslPath xmlPath)))) ∧
    (∀ (fs : PyPath → Bool) (cwd : List Chars) (xmlPath : PyPath)
        (prolog : List PrologNode) (q : PyPath),
      resolveXslPath fs cwd xmlPath prolog = Except.ok q → fs q = true) := by
  constructor
  · intro fs cwd xmlPath prolog hno hclean
    have hcand : xslCandidate cwd xmlPath prolog = .ok (conventionalXslPath xmlPath) := by
      rw [xslCandidate, if_neg (by rw [hno]; simp [pyTruthy])]
      rw [show resolvePy cwd (pathJoin (pathParent xmlPath)
            (parsePath (expectedXslName xmlPath))) = conventionalXslPath xmlPath from
          resolvePy_conventional cwd hclean]
    constructor
    · intro hex
      rw [resolveXslPath, hcand]
      simp [hex]
    · intro hex
      rw [resolveXslPath, hcand]
      simp [hex]
  · intro fs cwd xmlPath prolog q h
    rw [resolveXslPath] at h
    split at h
    · exact absurd h (by simp)
    · split at h
      · rename_i hfs
        obtain rfl : q = _ := (Except.ok.injEq .. ▸ h).symm
        exact hfs
      · exact absurd h (by simp)

/-- Concrete instance of the C3 theorem: `/docs/a.xml` with no stylesheet
PI resolves to the existing sibling `/docs/a.xsl`, which the filesystem
reports as existing. -/
theorem claim_C3_witness :
    resolveXslPath exFs [] exXmlPath [] = .ok (conventionalXslPath exXmlPath) ∧
    exFs (conventionalXslPath exXmlPath) = true :=
  ⟨(claim_C3_fallback_resolution.1 exFs [] exXmlPath [] (by decide) (by decide)).1
      (by decide),
    by decide⟩

/-- C10: an empty declared href (`href=""`) is falsy in the resolver's
truthiness test, so resolution behaves exactly as if no href had been
declared — the conventional-sibling fallback — and in particular never
raises the policy violation. -/
theorem claim_C10_empty_href_fallback (fs : PyPath → Bool) (cwd : List Chars)
    (xmlPath : PyPath) (prolog : List PrologNode)
    (hhref : readStylesheetHrefFromPi prolog = some []) :
    resolveXslPath fs cwd xmlPath prolog = resolveXslPath fs cwd xmlPath [] ∧
    ∀ a b c, resolveXslPath fs cwd xmlPath prolog ≠
      .error (.policyViolation a b c) := by
  have hfall : xslCandidate cwd xmlPath [] =
      .ok (resolvePy cwd (pathJoin (pathParent xmlPath)
        (parsePath (expectedXslName xmlPath)))) := rfl
  have hcand : xslCandidate cwd xmlPath prolog = xslCandidate cwd xmlPath [] := by
    rw [xslCandidate, if_neg (by rw [hhref]; simp [pyTruthy]), hfall]
  refine ⟨by rw [resolveXslPath, hcand, resolveXslPath], ?_⟩
  intro a b c h
  rw [resolveXslPath, hcand, hfall] at h
  split at h
  · simp_all
  · split at h
    · exact absurd h (by simp)
    · exact absurd h (by simp)

/-- Concrete instance of the C10 theorem: with `href=""` the resolution of
`/docs/a.xml` equals the no-PI resolution and succeeds on the sibling. -/
theorem claim_C10_witness :
    resolveXslPath exFs [] exXmlPath exPrologEmptyHref =
      resolveXslPath exFs [] exXmlPath [] ∧
    resolveXslPath exFs [] exXmlPath exPrologEmptyHref ≠
      .error (.policyViolation "a.xml".data "a.xsl".data []) :=
  ⟨(claim_C10_empty_href_fallback exFs [] exXmlPath exPrologEmptyHref (by decide)).1,
    (claim_C10_empty_href_fallback exFs [] exXmlPath exPrologEmptyHref (by decide)).2
      "a.xml".data "a.xsl".data []⟩

/-! ## C7 — `_inject_custom_css` -/

/-- C7: the output of `_inject_custom_css` is always
`prefix ++ styleBlock ++ suffix` where `prefix ++ suffix` is the untouched
input; the split point is the first case-insensitive occurrence of
`</head>` (no earlier position matches), or the very front when the marker
does not occur at all. -/
theorem claim_C7_inject_custom_css (html : Chars) :
    ∃ pre suf, html = pre ++ suf ∧
      injectCustomCss html = pre ++ styleBlock ++ suf ∧
      (("</head>".data.isPrefixOf (mapLower suf) = true ∧
        ∀ j < pre.length, "</head>".data.isPrefixOf ((mapLower html).drop j) = false) ∨
       (pre = [] ∧
        ∀ j, "</head>".data.isPrefixOf ((mapLower html).drop j) = false)) := by
  cases hf : strFind (mapLower html) "</head>".data with
  | none =>
    refine ⟨[], html, by simp, ?_, Or.inr ⟨rfl, strFind_none hf⟩⟩
    simp [injectCustomCss, hf]
  | some i =>
    have hle : i ≤ html.length := by
      have := strFind_le_length hf
      simpa [mapLower] using this
    refine ⟨html.take i, html.drop i, (List.take_append_drop i html).symm, ?_,
      Or.inl ⟨?_, ?_⟩⟩
    · simp [injectCustomCss, hf]
    · have h1 := (strFind_some hf).1
      rw [mapLower, List.map_drop]
      exact h1
    · intro j hj
      have hlen : (html.take i).length = i := by
        simp [Nat.min_eq_left hle]
      exact (strFind_some hf).2 j (by omega)

/-! ## Meta-charset machinery (C4, C2)

`MetaSpan s` is the declarative reading of one anchored match of the regex
`<meta\s+[^>]*charset\s*=` at the head of `s`: a case-insensitive `<meta`,
one whitespace character, a `>`-free gap, a case-insensitive `charset`,
optional whitespace, `=`. -/

def MetaSpan (s : Chars) : Prop :=
  ∃ m w mid c7 w2 rest,
    s = m ++ w :: (mid ++ c7 ++ w2 ++ '=' :: rest) ∧
    mapLower m = "<meta".data ∧ isReWS w = true ∧ '>' ∉ mid ∧
    mapLower c7 = "charset".data ∧ (∀ x ∈ w2, isReWS x = true)

theorem lowerPrefix_iff {pat : Chars} {n : Nat} (hn : pat.length = n) (s : Chars) :
    pat.isPrefixOf (mapLower (s.take n)) = true ↔
      ∃ m r, s = m ++ r ∧ mapLower m = pat := by
  subst hn
  induction pat generalizing s with
  | nil =>
    simp only [List.isPrefixOf]
    exact ⟨fun _ => ⟨[], s, rfl, rfl⟩, fun _ => trivial⟩
  | cons p ps ih =>
    cases s with
    | nil =>
      simp only [List.length_cons, List.take_nil, mapLower, List.map_nil]
      constructor
      · intro h; exact absurd h (by simp [List.isPrefixOf])
      · rintro ⟨m, r, hmr, hml⟩
        obtain rfl : m = [] := by
          cases m with
          | nil => rfl
          | cons a as => exact absurd hmr (by simp)
        exact absurd hml (by simp [mapLower])
    | cons c cs =>
      have hstep : (p :: ps).isPrefixOf (mapLower ((c :: cs).take (p :: ps).length)) =
          ((p == charLower c) && ps.isPrefixOf (mapLower (cs.take ps.length))) := by
        simp [mapLower, List.isPrefixOf]
      rw [hstep]
      constructor
      · intro h
        obtain ⟨h1, h2⟩ := Bool.and_eq_true .. ▸ h
        obtain ⟨m', r', hmr, hml⟩ := (ih cs).1 h2
        refine ⟨c :: m', r', by simp [hmr], ?_⟩
        simp [mapLower] at hml ⊢
        exact ⟨(beq_iff_eq.1 h1).symm, hml⟩
      · rintro ⟨m, r, hmr, hml⟩
        cases m with
        | nil => exact absurd hml (by simp [mapLower])
        | cons a as =>
          obtain ⟨rfl, hcs⟩ : a = c ∧ cs = as ++ r := by
            have := hmr
            simp only [List.cons_append, List.cons.injEq] at this
            exact ⟨this.1.symm, this.2⟩
          simp only [mapLower, List.map_cons, List.cons.injEq] at hml
          refine Bool.and_eq_true .. ▸ ⟨?_, ?_⟩
          · exact beq_iff_eq.2 hml.1.symm
          · exact (ih cs).2 ⟨as, r, hcs, hml.2⟩

theorem eqAfterWs_iff (u : Chars) :
    eqAfterWs u = true ↔
      ∃ w2 rest, u = w2 ++ '=' :: rest ∧ ∀ x ∈ w2, isReWS x = true := by
  induction u with
  | nil =>
    simp only [eqAfterWs, List.dropWhile_nil]
    constructor
    · intro h; exact absurd h (by simp)
    · rintro ⟨w2, rest, h, -⟩
      exact absurd h (by simp)
  | cons c u' ih =>
    by_cases hws : isReWS c = true
    · have hstep : eqAfterWs (c :: u') = eqAfterWs u' := by
        rw [eqAfterWs, eqAfterWs, List.dropWhile_cons, if_pos hws]
      rw [hstep, ih]
      constructor
      · rintro ⟨w2, rest, rfl, hw⟩
        exact ⟨c :: w2, rest, rfl, by
          intro x hx
          rcases List.mem_cons.1 hx with rfl | hx
          · exact hws
          · exact hw x hx⟩
      · rintro ⟨w2, rest, h, hw⟩
        cases w2 with
        | nil =>
          exfalso
          have : c = '=' := by simpa using congrArg (·.head?) h
          rw [this] at hws
          exact absurd hws (by decide)
        | cons a as =>
          obtain ⟨rfl, h2⟩ : a = c ∧ u' = as ++ '=' :: rest := by
            simp only [List.cons_append, List.cons.injEq] at h
            exact ⟨h.1.symm, h.2⟩
          exact ⟨as, rest, h2, fun x hx => hw x (List.mem_cons_of_mem _ hx)⟩
    · have hd : (c :: u').dropWhile isReWS = c :: u' := by
        rw [List.dropWhile_cons, if_neg hws]
      constructor
      · intro h
        rw [eqAfterWs, hd] at h
        split at h
        · rename_i xs heq
          obtain ⟨rfl, rfl⟩ : c = '=' ∧ u' = xs := by simpa using heq
          exact ⟨[], u', rfl, by simp⟩
        · exact absurd h (by simp)
      · rintro ⟨w2, rest, h, hw⟩
        cases w2 with
        | cons a as =>
          exfalso
          obtain rfl : a = c := by
            simp only [List.cons_append, List.cons.injEq] at h
            exact h.1.symm
          exact hws (hw a (List.mem_cons_self a as))
        | nil =>
          obtain ⟨rfl, rfl⟩ : c = '=' ∧ u' = rest := by
            simp only [List.nil_append, List.cons.injEq] at h
            exact h
          rfl

theorem scanCharsetEq_iff (t : Chars) :
    scanCharsetEq t = true ↔ ∃ mid c7 w2 rest,
      t = mid ++ c7 ++ w2 ++ '=' :: rest ∧ '>' ∉ mid ∧
      mapLower c7 = "charset".data ∧ (∀ x ∈ w2, isReWS x = true) := by
  induction t with
  | nil =>
    constructor
    · intro h; exact absurd h (by simp [scanCharsetEq])
    · rintro ⟨mid, c7, w2, rest, h, -, -, -⟩
      have hl := congrArg List.length h
      simp only [List.length_nil, List.length_append, List.length_cons] at hl
      omega
  | cons c r ih =>
    by_cases hgt : c = '>'
    · subst hgt
      constructor
      · intro h
        rw [scanCharsetEq, if_pos rfl] at h
        exact absurd h (by simp)
      · rintro ⟨mid, c7, w2, rest, h, hmid, hc7, hw2⟩
        exfalso
        cases mid with
        | cons a as =>
          obtain rfl : a = '>' := by
            simp only [List.cons_append, List.append_assoc, List.cons.injEq] at h
            exact h.1.symm
          exact hmid (List.mem_cons_self _ _)
        | nil =>
          cases c7 with
          | nil => exact absurd hc7 (by simp [mapLower])
          | cons b bs =>
            obtain rfl : b = '>' := by
              simp only [List.nil_append, List.cons_append, List.append_assoc,
                List.cons.injEq] at h
              exact h.1.symm
            simp only [mapLower, List.map_cons, charLower_gt] at hc7
            exact absurd (List.cons.injEq .. ▸ hc7).1 (by decide)
    · have hstep : scanCharsetEq (c :: r) =
          (("charset".data.isPrefixOf (mapLower ((c :: r).take 7)) &&
            eqAfterWs ((c :: r).drop 7)) || scanCharsetEq r) := by
        rw [scanCharsetEq, if_neg hgt]
      rw [hstep, Bool.or_eq_true, Bool.and_eq_true]
      constructor
      · rintro (⟨h1, h2⟩ | h1)
        · obtain ⟨c7, rr, hsplit, hc7⟩ :=
            (lowerPrefix_iff (by decide : ("charset".data).length = 7) (c :: r)).1 h1
          have hlen : c7.length = 7 := by
            have := congrArg List.length hc7
            simpa [mapLower] using this
          have hdrop : (c :: r).drop 7 = rr := by
            rw [hsplit, ← hlen, List.drop_left]
          rw [hdrop] at h2
          obtain ⟨w2, rest, hrr, hw2⟩ := (eqAfterWs_iff rr).1 h2
          refine ⟨[], c7, w2, rest, ?_, by simp, hc7, hw2⟩
          rw [hsplit, hrr]
          simp [List.append_assoc]
        · obtain ⟨mid, c7, w2, rest, hr, hmid, hc7, hw2⟩ := ih.1 h1
          refine ⟨c :: mid, c7, w2, rest, by simp [hr], ?_, hc7, hw2⟩
          intro hm
          rcases List.mem_cons.1 hm with he | hm
          · exact hgt he.symm
          · exact hmid hm
      · rintro ⟨mid, c7, w2, rest, h, hmid, hc7, hw2⟩
        cases mid with
        | nil =>
          left
          have hsplit : c :: r = c7 ++ (w2 ++ '=' :: rest) := by
            simpa [List.append_assoc] using h
          have hlen : c7.length = 7 := by
            have := congrArg List.length hc7
            simpa [mapLower] using this
          constructor
          · exact (lowerPrefix_iff (by decide : ("charset".data).length = 7) (c :: r)).2
              ⟨c7, _, hsplit, hc7⟩
          · have hdrop : (c :: r).drop 7 = w2 ++ '=' :: rest := by
              rw [hsplit, ← hlen, List.drop_left]
            rw [hdrop]
            exact (eqAfterWs_iff _).2 ⟨w2, rest, rfl, hw2⟩
        | cons a as =>
          right
          obtain ⟨rfl, hras⟩ : a = c ∧ r = as ++ c7 ++ w2 ++ '=' :: rest := by
            simp only [List.cons_append, List.append_assoc, List.cons.injEq] at h ⊢
            exact ⟨h.1.symm, by simp [h.2, List.append_assoc]⟩
          exact ih.2 ⟨as, c7, w2, rest, hras,
            fun hm => hmid (List.mem_cons_of_mem _ hm), hc7, hw2⟩

theorem matchMetaAt_iff (s : Chars) : matchMetaAt s = true ↔ MetaSpan s := by
  rw [matchMetaAt, Bool.and_eq_true]
  constructor
  · rintro ⟨h1, h2⟩
    obtain ⟨m, rr, hs, hm⟩ :=
      (lowerPrefix_iff (by decide : ("<meta".data).length = 5) s).1 h1
    have hlen : m.length = 5 := by
      have := congrArg List.length hm
      simpa [mapLower] using this
    have hdrop : s.drop 5 = rr := by
      rw [hs, ← hlen, List.drop_left]
    rw [hdrop] at h2
    cases rr with
    | nil => exact absurd h2 (by simp)
    | cons w r2 =>
      obtain ⟨hw, hscan⟩ := Bool.and_eq_true .. ▸ h2
      obtain ⟨mid, c7, w2, rest, hr2, hmid, hc7, hw2⟩ := (scanCharsetEq_iff r2).1 hscan
      exact ⟨m, w, mid, c7, w2, rest, by rw [hs, hr2], hm, hw, hmid, hc7, hw2⟩
  · rintro ⟨m, w, mid, c7, w2, rest, hs, hm, hw, hmid, hc7, hw2⟩
    have hlen : m.length = 5 := by
      have := congrArg List.length hm
      simpa [mapLower] using this
    refine ⟨(lowerPrefix_iff (by decide : ("<meta".data).length = 5) s).2 ⟨m, _, hs, hm⟩, ?_⟩
    have hdrop : s.drop 5 = w :: (mid ++ c7 ++ w2 ++ '=' :: rest) := by
      rw [hs, ← hlen, List.drop_left]
    rw [hdrop]
    show (isReWS w && scanCharsetEq (mid ++ c7 ++ w2 ++ '=' :: rest)) = true
    rw [hw, (scanCharsetEq_iff _).2 ⟨mid, c7, w2, rest, rfl, hmid, hc7, hw2⟩]
    rfl

theorem not_gt_of_mapLower {m : Chars} {pat : Chars} (hm : mapLower m = pat)
    (hpat : '>' ∉ pat) : '>' ∉ m := by
  intro hx
  have : charLower '>' ∈ mapLower m := List.mem_map_of_mem _ hx
  rw [charLower_gt, hm] at this
  exact hpat this

/-- A match span of the meta-charset regex contains no `>`, and the match
survives arbitrary replacement of the text after the span. -/
theorem MetaSpan_elim {s : Chars} (h : MetaSpan s) :
    ∃ span rest, s = span ++ rest ∧ '>' ∉ span ∧ ∀ z, MetaSpan (span ++ z) := by
  obtain ⟨m, w, mid, c7, w2, rest, hs, hm, hw, hmid, hc7, hw2⟩ := h
  refine ⟨m ++ w :: (mid ++ c7 ++ w2 ++ ['=']), rest, ?_, ?_, ?_⟩
  · rw [hs]; simp [List.append_assoc]
  · intro hmem
    rcases List.mem_append.1 hmem with hmem | hmem
    · exact not_gt_of_mapLower hm (by decide) hmem
    · rcases List.mem_cons.1 hmem with he | hmem
      · rw [← he] at hw
        exact absurd hw (by decide)
      · rcases List.mem_append.1 hmem with hmem | hmem
        · rcases List.mem_append.1 hmem with hmem | hmem
          · rcases List.mem_append.1 hmem with hmem | hmem
            · exact hmid hmem
            · exact not_gt_of_mapLower hc7 (by decide) hmem
          · have := hw2 _ hmem
            exact absurd this (by decide)
        · simp only [List.mem_singleton] at hmem
          exact absurd hmem (by decide)
  · intro z
    refine ⟨m, w, mid, c7, w2, z, ?_, hm, hw, hmid, hc7, hw2⟩
    simp [List.append_assoc]

theorem matchMetaAt_congr_of_gt {x : Chars} (hgt : '>' ∈ x) (y z : Chars) :
    matchMetaAt (x ++ y) = matchMetaAt (x ++ z) := by
  have key : ∀ {u v : Chars}, MetaSpan (x ++ u) → MetaSpan (x ++ v) := by
    intro u v h
    obtain ⟨span, rest, heq, hnogt, hall⟩ := MetaSpan_elim h
    rcases List.append_eq_append_iff.1 heq with ⟨a', ha1, -⟩ | ⟨c', hc1, -⟩
    · exact absurd (ha1 ▸ List.mem_append_left a' hgt) hnogt
    · rw [hc1, List.append_assoc]
      exact hall (c' ++ v)
  cases hy : matchMetaAt (x ++ y) <;> cases hz : matchMetaAt (x ++ z)
  · rfl
  · exact absurd ((matchMetaAt_iff (x ++ y)).2 (key ((matchMetaAt_iff (x ++ z)).1 hz)))
      (by simp [hy])
  · exact absurd ((matchMetaAt_iff (x ++ z)).2 (key ((matchMetaAt_iff (x ++ y)).1 hy)))
      (by simp [hz])
  · rfl

theorem matchMetaAt_cons_ne_lt {c : Char} (hc : c ≠ '<') (y : Chars) :
    matchMetaAt (c :: y) = false := by
  have h1 : "<meta".data.isPrefixOf (mapLower ((c :: y).take 5)) = false := by
    have hne : charLower c ≠ '<' := charLower_ne_lt hc
    cases hbe : (('<' : Char) == charLower c) with
    | false => simp [List.take_succ_cons, mapLower, List.isPrefixOf, hbe]
    | true => exact absurd (beq_iff_eq.1 hbe).symm hne
  rw [matchMetaAt, h1, Bool.false_and]

theorem matchMetaAt_nil : matchMetaAt [] = false := by decide

/-- Matches of `(x ++ y)` that start inside `x`. -/
def countFrom : Chars → Chars → Nat
  | [], _ => 0
  | x@(_ :: r), y => (if matchMetaAt (x ++ y) then 1 else 0) + countFrom r y

theorem countFrom_cons (c : Char) (r y : Chars) :
    countFrom (c :: r) y = (if matchMetaAt ((c :: r) ++ y) then 1 else 0) + countFrom r y :=
  rfl

theorem countMeta_cons (c : Char) (r : Chars) :
    countMeta (c :: r) = (if matchMetaAt (c :: r) then 1 else 0) + countMeta r :=
  rfl

theorem hasMetaB_cons (c : Char) (r : Chars) :
    hasMetaB (c :: r) = (matchMetaAt (c :: r) || hasMetaB r) :=
  rfl

theorem countMeta_append (x y : Chars) :
    countMeta (x ++ y) = countFrom x y + countMeta y := by
  induction x with
  | nil => simp [countFrom]
  | cons c r ih =>
    show countMeta (c :: (r ++ y)) = _
    rw [countMeta_cons, countFrom_cons, ih]
    simp only [List.cons_append]
    omega

theorem countMeta_eq_zero {s : Chars} (h : hasMetaB s = false) : countMeta s = 0 := by
  induction s with
  | nil => rfl
  | cons c r ih =>
    rw [hasMetaB_cons, Bool.or_eq_false_iff] at h
    rw [countMeta_cons, h.1, ih h.2]
    simp

theorem countFrom_congr_gtLast {x : Chars} (h : x.getLast? = some '>') (y z : Chars) :
    countFrom x y = countFrom x z := by
  induction x with
  | nil => simp at h
  | cons c r ih =>
    cases r with
    | nil =>
      obtain rfl : c = '>' := by simpa using h
      rw [countFrom_cons, countFrom_cons]
      simp [countFrom, matchMetaAt_cons_ne_lt (show ('>' : Char) ≠ '<' by decide)]
    | cons c2 r2 =>
      have hlast : (c2 :: r2).getLast? = some '>' := by
        rw [← h, List.getLast?_cons_cons]
      have hmem : '>' ∈ c :: c2 :: r2 :=
        List.mem_of_mem_getLast? (by simp only [h, Option.mem_def])
      conv_lhs => rw [countFrom_cons]
      conv_rhs => rw [countFrom_cons]
      rw [matchMetaAt_congr_of_gt hmem y z, ih hlast]

theorem countFrom_no_lt {x : Chars} (h : '<' ∉ x) (y : Chars) : countFrom x y = 0 := by
  induction x with
  | nil => rfl
  | cons c r ih =>
    have hc : c ≠ '<' := fun he => h (he ▸ List.mem_cons_self c r)
    rw [countFrom_cons]
    simp only [List.cons_append, matchMetaAt_cons_ne_lt hc]
    simp [ih (fun hm => h (List.mem_cons_of_mem _ hm))]

/-- The injected line always matches the regex at its own `<`, whatever
follows the fixed `<meta charset="` prefix. -/
theorem matchMetaAt_metaFixed (w : Chars) :
    matchMetaAt ("<meta charset=\"".data ++ w) = true := by
  apply (matchMetaAt_iff _).2
  refine ⟨"<meta".data, ' ', [], "charset".data, [], '"' :: w, ?_,
    by decide, by decide, by simp, by decide, by simp⟩
  rfl

theorem hasMetaB_append_of_match {y : Chars} (hy : matchMetaAt y = true) (x : Chars) :
    hasMetaB (x ++ y) = true := by
  induction x with
  | nil =>
    cases y with
    | nil => rw [matchMetaAt_nil] at hy; exact absurd hy (by simp)
    | cons c r =>
      show hasMetaB (c :: r) = true
      rw [hasMetaB, hy, Bool.true_or]
  | cons c r ih =>
    show hasMetaB (c :: (r ++ y)) = true
    rw [hasMetaB, ih, Bool.or_true]

/-! ## C4 — idempotence of `_inject_meta_charset` -/

theorem injectMetaCharset_of_has {html : Chars} (cs : Chars)
    (h : hasMetaB html = true) : injectMetaCharset html cs = html := by
  rw [injectMetaCharset, if_pos h]

theorem hasMetaB_injectMetaCharset (html cs : Chars) :
    hasMetaB (injectMetaCharset html cs) = true := by
  cases h : hasMetaB html with
  | true => rw [injectMetaCharset_of_has cs h]; exact h
  | false =>
    rw [injectMetaCharset, if_neg (by simp [h])]
    cases hf : strFind (mapLower html) "<head".data with
    | none =>
      dsimp only
      rw [show metaLine cs ++ html =
          "<meta charset=\"".data ++ (cs ++ ("\">\n".data ++ html)) from by
        simp [metaLine, List.append_assoc]]
      exact hasMetaB_append_of_match (matchMetaAt_metaFixed _) []
    | some idx =>
      dsimp only
      cases hf2 : strFindFrom (mapLower html) ">".data idx with
      | none =>
        dsimp only
        rw [show metaLine cs ++ html =
            "<meta charset=\"".data ++ (cs ++ ("\">\n".data ++ html)) from by
          simp [metaLine, List.append_assoc]]
        exact hasMetaB_append_of_match (matchMetaAt_metaFixed _) []
      | some headEnd =>
        dsimp only
        rw [show html.take (headEnd + 1) ++ '\n' :: (metaLine cs ++ html.drop (headEnd + 1)) =
            (html.take (headEnd + 1) ++ ['\n']) ++
              ("<meta charset=\"".data ++ (cs ++ ("\">\n".data ++ html.drop (headEnd + 1))))
            from by simp [metaLine, List.append_assoc]]
        exact hasMetaB_append_of_match (matchMetaAt_metaFixed _) _

/-- C4: `_inject_meta_charset` is idempotent — the first application
guarantees a meta-charset declaration is present (either it already was, or
the injected line itself matches), so the second application returns its
input unchanged. -/
theorem claim_C4_inject_meta_idempotent (html charset : Chars) :
    injectMetaCharset (injectMetaCharset html charset) charset =
      injectMetaCharset html charset :=
  injectMetaCharset_of_has charset (hasMetaB_injectMetaCharset html charset)

/-! ## C2 — the meta-charset declaration of the written file -/

/-- Core of C2: when the string entering `_inject_meta_charset` has no
meta-charset declaration, the result has exactly one, and it is the
injected `<meta charset="enc">` line. -/
theorem injectMeta_unique_decl (html enc : Chars) (hno : hasMetaB html = false)
    (hlt : '<' ∉ enc) :
    countMeta (injectMetaCharset html enc) = 1 ∧
    ∃ u v, injectMetaCharset html enc =
      u ++ ("<meta charset=\"".data ++ enc ++ "\">".data) ++ v := by
  have hmetaShape : ∀ t : Chars, metaLine enc ++ t =
      ("<meta charset=\"".data ++ enc ++ "\">".data) ++ ('\n' :: t) := by
    intro t
    simp [metaLine, List.append_assoc]
  have hcountMeta : ∀ t : Chars, countFrom (metaLine enc) t = 1 := by
    intro t
    have hshape : metaLine enc =
        '<' :: ("meta charset=\"".data ++ enc ++ "\">\n".data) := by
      simp [metaLine]
    rw [hshape, countFrom_cons]
    have hm : matchMetaAt (('<' :: ("meta charset=\"".data ++ enc ++ "\">\n".data)) ++ t) =
        true := by
      rw [show ('<' :: ("meta charset=\"".data ++ enc ++ "\">\n".data)) ++ t =
          "<meta charset=\"".data ++ (enc ++ ("\">\n".data ++ t)) from by
        simp [List.append_assoc]]
      exact matchMetaAt_metaFixed _
    rw [hm]
    have hz : countFrom ("meta charset=\"".data ++ enc ++ "\">\n".data) t = 0 := by
      refine countFrom_no_lt ?_ t
      intro hmem
      rcases List.mem_append.1 hmem with hmem | hmem
      · rcases List.mem_append.1 hmem with hmem | hmem
        · exact absurd hmem (by decide)
        · exact hlt hmem
      · exact absurd hmem (by decide)
    rw [hz]
    simp
  rw [injectMetaCharset, if_neg (by simp [hno])]
  cases hf : strFind (mapLower html) "<head".data with
  | none =>
    dsimp only
    refine ⟨?_, [], '\n' :: html, by simpa using hmetaShape html⟩
    rw [countMeta_append, hcountMeta, countMeta_eq_zero hno]
  | some idx =>
    dsimp only
    cases hf2 : strFindFrom (mapLower html) ">".data idx with
    | none =>
      dsimp only
      refine ⟨?_, [], '\n' :: html, by simpa using hmetaShape html⟩
      rw [countMeta_append, hcountMeta, countMeta_eq_zero hno]
    | some headEnd =>
      dsimp only
      obtain ⟨k, hk, rfl⟩ : ∃ k,
          strFind ((mapLower html).drop idx) ">".data = some k ∧ headEnd = k + idx := by
        rw [strFindFrom] at hf2
        obtain ⟨k, hk, hke⟩ := Option.map_eq_some'.1 hf2
        exact ⟨k, hk, hke.symm⟩
      have hpref := (strFind_some hk).1
      have hdd : ((mapLower html).drop idx).drop k = mapLower (html.drop (idx + k)) := by
        simp only [mapLower]
        rw [List.drop_drop, Nat.add_comm]
        exact (List.map_drop ..).symm
      rw [hdd] at hpref
      have hhtml : ∃ t', html.drop (idx + k) = '>' :: t' := by
        cases hd : html.drop (idx + k) with
        | nil =>
          rw [hd] at hpref
          exact absurd hpref (by simp [mapLower, List.isPrefixOf])
        | cons a t' =>
          rw [hd] at hpref
          have h1 : '>' = charLower a := by
            simpa [mapLower, List.isPrefixOf] using hpref
          have ha2 : a = '>' := charLower_eq_of_target_lt (by decide) h1.symm
          exact ⟨t', by rw [ha2]⟩
      obtain ⟨t', ht'⟩ := hhtml
      have hlen : idx + k ≤ html.length := by
        have h1 := congrArg List.length ht'
        simp only [List.length_drop, List.length_cons] at h1
        omega
      have hA : html.take (k + idx + 1) = html.take (idx + k) ++ ['>'] := by
        have hsplit := List.take_append_drop (idx + k) html
        have hlen2 : (html.take (idx + k)).length = idx + k := by
          simp [Nat.min_eq_left hlen]
        calc html.take (k + idx + 1)
            = (html.take (idx + k) ++ html.drop (idx + k)).take (k + idx + 1) := by
              rw [hsplit]
          _ = html.take (idx + k) ++ (html.drop (idx + k)).take 1 := by
              rw [List.take_append_eq_append_take]
              congr 1
              · rw [List.take_of_length_le (by omega)]
              · congr 1
                omega
          _ = html.take (idx + k) ++ ['>'] := by rw [ht']; rfl
      have hAlast : (html.take (k + idx + 1)).getLast? = some '>' := by
        rw [hA, List.getLast?_concat]
      have hAC : html.take (k + idx + 1) ++ html.drop (k + idx + 1) = html :=
        List.take_append_drop _ _
      have h0 : countFrom (html.take (k + idx + 1)) (html.drop (k + idx + 1)) +
          countMeta (html.drop (k + idx + 1)) = 0 := by
        rw [← countMeta_append, hAC]
        exact countMeta_eq_zero hno
      constructor
      · rw [show html.take (k + idx + 1) ++
            '\n' :: (metaLine enc ++ html.drop (k + idx + 1)) =
            html.take (k + idx + 1) ++
              (('\n' :: metaLine enc) ++ html.drop (k + idx + 1)) from by simp]
        rw [countMeta_append, countMeta_append]
        rw [countFrom_congr_gtLast hAlast
          (('\n' :: metaLine enc) ++ html.drop (k + idx + 1)) (html.drop (k + idx + 1))]
        have hB : countFrom ('\n' :: metaLine enc) (html.drop (k + idx + 1)) = 1 := by
          rw [countFrom_cons]
          rw [show ('\n' :: metaLine enc) ++ html.drop (k + idx + 1) =
              '\n' :: (metaLine enc ++ html.drop (k + idx + 1)) from rfl]
          rw [matchMetaAt_cons_ne_lt (by decide)]
          simpa using hcountMeta (html.drop (k + idx + 1))
        rw [hB]
        omega
      · refine ⟨html.take (k + idx + 1) ++ ['\n'], '\n' :: html.drop (k + idx + 1), ?_⟩
        rw [show html.take (k + idx + 1) ++
            '\n' :: (metaLine enc ++ html.drop (k + idx + 1)) =
            (html.take (k + idx + 1) ++ ['\n']) ++
              (metaLine enc ++ html.drop (k + idx + 1)) from by simp]
        rw [hmetaShape (html.drop (k + idx + 1))]
        simp [List.append_assoc]

/-- C2 (amended): when the style-injected transform output contains no
meta-charset declaration, the written HTML contains exactly one, namely the
injected `<meta charset="enc">` naming the encoding used to encode the
bytes; when a declaration is already present the string is written
unchanged, and its charset need not match the output encoding. -/
theorem claim_C2_meta_charset (rawHtml outEnc : Chars)
    (hno : hasMetaB (injectCustomCss rawHtml) = false) (hlt : '<' ∉ outEnc) :
    countMeta (transformPipeline rawHtml outEnc) = 1 ∧
    ∃ u v, transformPipeline rawHtml outEnc =
      u ++ ("<meta charset=\"".data ++ outEnc ++ "\">".data) ++ v :=
  injectMeta_unique_decl (injectCustomCss rawHtml) outEnc hno hlt

/-- A transform output that already carries a `<meta charset="UTF-8">`. -/
def exRawWithMeta : Chars :=
  "<html><head><meta charset=\"UTF-8\"></head><body></body></html>".data

set_option maxRecDepth 100000 in
/-- Counterexample to C2 as stated: with a stylesheet output encoding of
`Shift_JIS`, the written file still carries exactly one meta-charset
declaration, but the string `Shift_JIS` occurs nowhere in the file — the
declaration names `UTF-8`, not the encoding the bytes were written in,
because the pre-existing declaration suppresses the injection. -/
theorem claim_C2_counterexample :
    countMeta (transformPipeline exRawWithMeta "Shift_JIS".data) = 1 ∧
    strFind (transformPipeline exRawWithMeta "Shift_JIS".data) "Shift_JIS".data =
      none ∧
    strFind (transformPipeline exRawWithMeta "Shift_JIS".data) "UTF-8".data ≠
      none := by
  decide

/-- Concrete instance of the C2 theorem: a head-only document with no
pre-existing declaration ends up with exactly one `<meta charset>`, naming
the write encoding. -/
theorem claim_C2_witness :
    countMeta (transformPipeline "<html><head></head><body></body></html>".data
      "Shift_JIS".data) = 1 ∧
    ∃ u v, transformPipeline "<html><head></head><body></body></html>".data
      "Shift_JIS".data =
      u ++ ("<meta charset=\"".data ++ "Shift_JIS".data ++ "\">".data) ++ v :=
  claim_C2_meta_charset "<html><head></head><body></body></html>".data
    "Shift_JIS".data (by decide) (by decide)

/-! ## C9 — `_get_preview_html_path` -/

theorem hexDigit_ne_slash {n : Nat} (h : n < 16) : hexDigit n ≠ '/' := by
  interval_cases n <;> decide

theorem word8Hex_length (n : Nat) : (word8Hex n).length = 8 := by
  simp [word8Hex]

theorem sha1Hex_length (msg : List Nat) : (sha1Hex msg).length = 40 := by
  rw [sha1Hex]
  obtain ⟨a, b, c, d, e⟩ := sha1Words msg
  simp [word8Hex_length]

theorem sha1Hex10_length (s : Chars) : (sha1Hex10 s).length = 10 := by
  simp [sha1Hex10, sha1Hex_length]

theorem sha1Hex_no_slash (msg : List Nat) : '/' ∉ sha1Hex msg := by
  rw [sha1Hex]
  obtain ⟨a, b, c, d, e⟩ := sha1Words msg
  intro hm
  simp only [List.mem_flatten, List.mem_map] at hm
  obtain ⟨l, ⟨w, -, rfl⟩, hml⟩ := hm
  simp only [word8Hex, List.mem_map, List.mem_range] at hml
  obtain ⟨i, -, hi⟩ := hml
  exact hexDigit_ne_slash (Nat.mod_lt _ (by omega)) hi

theorem sha1Hex10_no_slash (s : Chars) : '/' ∉ sha1Hex10 s :=
  fun hm => sha1Hex_no_slash (utf8Bytes s) (List.take_subset _ _ hm)

theorem previewFileName_no_slash {x : PyPath} (hx : '/' ∉ pathName x) :
    '/' ∉ previewFileName x := by
  intro hm
  rcases List.mem_append.1 hm with hm | hm
  · rcases List.mem_append.1 hm with hm | hm
    · rcases List.mem_append.1 hm with hm | hm
      · exact hx (pyStem_subset _ hm)
      · exact absurd hm (by decide)
    · exact sha1Hex10_no_slash _ hm
  · exact absurd hm (by decide)

theorem previewFileName_length (x : PyPath) :
    (previewFileName x).length = (pyStem (pathName x)).length + 26 := by
  simp [previewFileName, sha1Hex10_length]

theorem parsePath_previewFileName {x : PyPath} (hx : '/' ∉ pathName x) :
    parsePath (previewFileName x) = ⟨false, [previewFileName x]⟩ := by
  have hlen := previewFileName_length x
  refine parsePath_single ?_ ?_ (previewFileName_no_slash hx)
  · intro h; rw [h] at hlen; simp at hlen
  · intro h; rw [h] at hlen; simp at hlen

/-- C9 (amended): the preview path is a deterministic function of the XML
path (equal inputs give equal outputs), and two XML paths collide on the
same preview path exactly when they have the same stem *and* the same first
ten SHA-1 hex characters of their full path string — the truncated hash
disambiguates same-named files from different folders only up to 40-bit
hash collisions. -/
theorem claim_C9_preview_path (tempRoot p q : PyPath)
    (hp : '/' ∉ pathName p) (hq : '/' ∉ pathName q) :
    (getPreviewHtmlPath tempRoot p = getPreviewHtmlPath tempRoot q ↔
      (pyStem (pathName p) = pyStem (pathName q) ∧
        sha1Hex10 (pathStr p) = sha1Hex10 (pathStr q))) ∧
    (p = q → getPreviewHtmlPath tempRoot p = getPreviewHtmlPath tempRoot q) := by
  refine ⟨?_, fun h => by rw [h]⟩
  rw [getPreviewHtmlPath, getPreviewHtmlPath,
    parsePath_previewFileName hp, parsePath_previewFileName hq]
  have hjoin : ∀ f : Chars, pathJoin tempRoot ⟨false, [f]⟩ =
      ⟨tempRoot.absolute, tempRoot.parts ++ [f]⟩ := by
    intro f; rw [pathJoin]; simp
  rw [hjoin, hjoin]
  constructor
  · intro h
    have hname : previewFileName p = previewFileName q := by
      have := (PyPath.mk.injEq .. ▸ h).2
      simpa using this
    rw [previewFileName, previewFileName] at hname
    have h2 := List.append_cancel_right hname
    have hlh : (sha1Hex10 (pathStr p)).length = (sha1Hex10 (pathStr q)).length := by
      rw [sha1Hex10_length, sha1Hex10_length]
    have hls : (pyStem (pathName p) ++ "__preview__".data).length =
        (pyStem (pathName q) ++ "__preview__".data).length := by
      have := congrArg List.length h2
      simp only [List.length_append] at this ⊢
      rw [sha1Hex10_length, sha1Hex10_length] at this
      omega
    obtain ⟨hsm, hh⟩ := List.append_inj h2 hls
    exact ⟨List.append_cancel_right hsm, hh⟩
  · rintro ⟨h1, h2⟩
    rw [previewFileName, previewFileName, h1, h2]

def exTempRoot : PyPath := ⟨true, ["tmp".data, "XmlStyleViewer".data]⟩

/-- Two distinct absolute paths, same stem, whose SHA-1 digests agree on
the first ten hex characters (`e933a9d24c`). -/
def exColl1 : PyPath := ⟨true, ["c468711".data, "x.xml".data]⟩

def exColl2 : PyPath := ⟨true, ["c1813497".data, "x.xml".data]⟩

set_option maxRecDepth 1000000 in
/-- Counterexample to C9 as stated: `/c468711/x.xml` and `/c1813497/x.xml`
are different XML paths, yet they map to the same preview path, because
their full-path SHA-1 digests share the first ten hex characters.  The
ten-character truncation cannot make "two different XML paths never yield
the same preview path" true. -/
theorem claim_C9_counterexample :
    exColl1 ≠ exColl2 ∧
    getPreviewHtmlPath exTempRoot exColl1 = getPreviewHtmlPath exTempRoot exColl2 := by
  constructor
  · decide
  · decide

/-- Concrete instance of the C9 theorem: same-directory files with
different stems never collide. -/
theorem claim_C9_witness :
    getPreviewHtmlPath exTempRoot exXmlPath ≠
      getPreviewHtmlPath exTempRoot ⟨true, ["docs".data, "b.xml".data]⟩ :=
  fun h => absurd
    ((claim_C9_preview_path exTempRoot exXmlPath ⟨true, ["docs".data, "b.xml".data]⟩
      (by decide) (by decide)).1.mp h).1 (by decide)

end XmlStyleViewer
